import Mathlib

/-! youtube-go-api: the job registry and its handlers

A shallow embedding of `src/main.go`: the three HTTP handlers
(`ValidateByVideoId`, `Download`, the `/progress/:id` handler), the runner
goroutine spawned by `Download`, and the process-wide `progressMap`.

* `progressMap` is a Go `map[string]*DownloadProgress`.  The pointers are kept:
  the state has a heap of `DownloadProgress` objects and the map sends an
  identifier to an address.  `&DownloadProgress{...}` allocates a fresh address.
* Every critical section (`progressMux.Lock()` ... `progressMux.Unlock()`) is one
  atomic step of the transition system.
* `ytClient.GetVideo` and `c.ShouldBindJSON` belong to external libraries and are
  parameters (`Env`).
* A nil-pointer dereference panics and takes the whole process down: a step
  that hits it returns `none`.
-/

namespace YoutubeGoApi

/-! ## Data model -/

/-- A scalar of a JSON response body.  `raw` carries JSON text produced elsewhere
(a `MarshalJSON` method, or a value of a library type). -/
inductive JsonValue where
  | num (n : Int)
  | str (s : String)
  | bool (b : Bool)
  | raw (text : String)
  deriving DecidableEq, Repr

/-- A JSON object: the fields in the order they are written. -/
abbrev JsonObject := List (String × JsonValue)

/-- What `c.JSON(status, body)` sends. -/
structure Response where
  status : Nat
  body : JsonObject
  deriving DecidableEq, Repr

/-- The `youtube.Video` fields the handlers read.  `Duration` is a
`time.Duration`, an int64 count of nanoseconds.  `Thumbnails` and `Formats` are
library types that are only passed through; they are carried as their JSON
text. -/
structure Video where
  Title : String
  Author : String
  Duration : Int
  Thumbnails : String
  Formats : String
  deriving DecidableEq, Repr

/-- The struct `VideoDetails` (main.go 35-41).  `Duration` is declared
`time.Duration`. -/
structure VideoDetails where
  Title : String
  Author : String
  Duration : Int
  Thumbnails : String
  Formats : String
  deriving DecidableEq, Repr

/-- The struct `DownloadRequest` (main.go 43-47). -/
structure DownloadRequest where
  VideoID : String
  AudioOnly : Bool
  Quality : String
  deriving DecidableEq, Repr

/-- The struct `DownloadProgress` (main.go 49-54). -/
structure DownloadProgress where
  VideoID : String
  Progress : Int
  Completed : Bool
  Error : String
  deriving DecidableEq, Repr, Inhabited

/-- The external collaborators of the handlers: gin's body binding (which
enforces `binding:"required"` on `video_id`) and the metadata client. -/
structure Env where
  ShouldBindJSON : String → Except String DownloadRequest
  GetVideo : String → Except String Video

/-! ## JSON rendering -/

/-- The method `CustomDuration.MarshalJSON` (main.go 31-33): the duration's
`String()` between two double quotes.  `durationString` is Go's
`time.Duration.String`. -/
def CustomDuration.MarshalJSON (durationString : Int → String) (d : Int) : String :=
  "\"" ++ durationString d ++ "\""

/-- How `encoding/json` renders a `VideoDetails`: one field per struct field, under
its `json` tag; a `time.Duration` has no marshalling method and is written as the
integer it is. -/
def marshalVideoDetails (v : VideoDetails) : JsonObject :=
  [("title", .str v.Title), ("author", .str v.Author), ("duration", .num v.Duration),
   ("thumbnails", .raw v.Thumbnails), ("formats", .raw v.Formats)]

/-- How `encoding/json` renders a `DownloadProgress`: the struct has no tags, so
the keys are the field names. -/
def marshalDownloadProgress (j : DownloadProgress) : JsonObject :=
  [("VideoID", .str j.VideoID), ("Progress", .num j.Progress),
   ("Completed", .bool j.Completed), ("Error", .str j.Error)]

/-- The value stored under a key of a JSON object. -/
def JsonObject.field (o : JsonObject) (key : String) : Option JsonValue :=
  (o.find? (fun kv => kv.1 == key)).map Prod.snd

/-! ## The registry and the goroutines -/

/-- A runner goroutine (main.go 133-150): the captured `req.VideoID`, the loop
variable `i`, and whether its deferred function has run. -/
structure Runner where
  VideoID : String
  i : Int
  finished : Bool
  deriving DecidableEq, Repr

/-- The process state: the heap of `DownloadProgress` objects with the next free
address, the global `progressMap`, and the goroutines spawned so far in spawn
order. -/
structure State where
  heap : Nat → DownloadProgress
  next : Nat
  progressMap : String → Option Nat
  runners : List Runner

/-- The state at process start: `progressMap = make(map[string]*DownloadProgress)`. -/
def State.init : State :=
  { heap := fun _ => default, next := 0, progressMap := fun _ => none, runners := [] }

/-- A field assignment made by a runner under the lock. -/
inductive Write where
  | setProgress (i : Int)
  | setCompleted
  deriving DecidableEq, Repr

/-- The effect of a field assignment on the object it reaches. -/
def Write.apply : Write → DownloadProgress → DownloadProgress
  | .setProgress i, j => { j with Progress := i }
  | .setCompleted, j => { j with Completed := true }

/-- The next critical section of a runner, from its local state: while
`i <= 100` it assigns `Progress = i` and then does `i += 20`; when the loop is
left the deferred function assigns `Completed = true`; after that the goroutine
is gone. -/
def Runner.advance (r : Runner) : Option (Write × Runner) :=
  if r.finished then none
  else if r.i ≤ 100 then some (.setProgress r.i, { r with i := r.i + 20 })
  else some (.setCompleted, { r with finished := true })

/-- The assignments a runner makes when run for `fuel` critical sections. -/
def Runner.writes : Nat → Runner → List Write
  | 0, _ => []
  | fuel + 1, r =>
    match r.advance with
    | none => []
    | some (w, r2) => w :: Runner.writes fuel r2

/-- One critical section of runner number `k`:
`progressMap[req.VideoID].Progress = i` or `progressMap[req.VideoID].Completed = true`.
The map is looked up by key each time; a missing key gives a nil pointer and
the assignment panics (`none`).  A runner that does not exist or has finished
has no step left. -/
def runnerStep (s : State) (k : Nat) : Option State :=
  match s.runners[k]? with
  | none => some s
  | some r =>
    match r.advance with
    | none => some s
    | some (w, r2) =>
      match s.progressMap r.VideoID with
      | none => none
      | some p =>
        some { s with heap := Function.update s.heap p (w.apply (s.heap p)),
                      runners := s.runners.set k r2 }

/-! ## The handlers -/

/-- The handler `ValidateByVideoId` (main.go 74-94). -/
def ValidateByVideoId (env : Env) (videoID : String) (s : State) : Response × State :=
  match env.GetVideo videoID with
  | .error _ => (⟨400, [("error", .str "Invalid video ID")]⟩, s)
  | .ok video =>
    let videoDetails : VideoDetails :=
      { Title := video.Title, Author := video.Author, Duration := video.Duration,
        Thumbnails := video.Thumbnails, Formats := video.Formats }
    (⟨200, marshalVideoDetails videoDetails⟩, s)

/-- The accepted path of `Download` (main.go 123-150): under the lock,
`progressMap[req.VideoID] = &DownloadProgress{VideoID: req.VideoID, Progress: 0}`
with a freshly allocated object, then `go func(...)` spawns the runner. -/
def State.register (s : State) (videoID : String) : State :=
  { heap := Function.update s.heap s.next
              { VideoID := videoID, Progress := 0, Completed := false, Error := "" },
    next := s.next + 1,
    progressMap := Function.update s.progressMap videoID (some s.next),
    runners := s.runners ++ [{ VideoID := videoID, i := 0, finished := false }] }

/-- The handler `Download` (main.go 107-153). -/
def Download (env : Env) (body : String) (s : State) : Response × State :=
  match env.ShouldBindJSON body with
  | .error _ => (⟨400, [("error", .str "Invalid request payload")]⟩, s)
  | .ok req =>
    match env.GetVideo req.VideoID with
    | .error _ => (⟨400, [("error", .str "Invalid video ID")]⟩, s)
    | .ok _ => (⟨200, [("message", .str "Download started")]⟩, s.register req.VideoID)

/-- The handler of `GET /progress/:id` (main.go 174-190) as a function of one
registry state: the lookup and the four field reads of the serialisation see the
same state.  `pollInFlight` is the handler with other goroutines running between
the lookup and the reads. -/
def progressHandler (videoID : String) (s : State) : Response × State :=
  match s.progressMap videoID with
  | none => (⟨404, [("error", .str "No progress found for the given video ID")]⟩, s)
  | some p => (⟨200, marshalDownloadProgress (s.heap p)⟩, s)

/-! ## Executions -/

/-- What the scheduler can run next: a request to one of the three routes, or
the next critical section of a spawned runner. -/
inductive Event where
  | download (body : String)
  | validate (id : String)
  | poll (id : String)
  | runner (k : Nat)
  deriving DecidableEq, Repr

/-- One step of the system; `none` is a crashed process. -/
def step (env : Env) (s : State) : Event → Option State
  | .download body => some (Download env body s).2
  | .validate id => some (ValidateByVideoId env id s).2
  | .poll id => some (progressHandler id s).2
  | .runner k => runnerStep s k

/-- A run of the system along a schedule. -/
def exec (env : Env) (s : State) : List Event → Option State
  | [] => some s
  | e :: es => (step env s e).bind (fun t => exec env t es)

/-- Whether an event is a start-download for `x` that is accepted. -/
def Event.starts (env : Env) (x : String) : Event → Bool
  | .download body =>
    match env.ShouldBindJSON body with
    | .error _ => false
    | .ok req =>
      match env.GetVideo req.VideoID with
      | .error _ => false
      | .ok _ => req.VideoID == x
  | _ => false

/-- What a poll of `x` answers in state `s`. -/
def poll (s : State) (x : String) : Response := (progressHandler x s).1

/-- The `/progress/:id` handler as it interleaves with the rest of the system
(main.go 178-189): the pointer is read from the map under the read lock at
state `s`; then, with the lock released, `c.JSON` reads `VideoID`, `Progress`,
`Completed` and `Error` from that pointer one after the other, and the schedules
`a`, `b`, `c`, `d` are what the other goroutines do before each of the four
reads.  `none` is a process that crashed meanwhile. -/
def pollInFlight (env : Env) (videoID : String) (s : State) (a b c d : List Event) :
    Option Response :=
  match s.progressMap videoID with
  | none => some ⟨404, [("error", .str "No progress found for the given video ID")]⟩
  | some p =>
    (exec env s a).bind fun s1 =>
    (exec env s1 b).bind fun s2 =>
    (exec env s2 c).bind fun s3 =>
    (exec env s3 d).bind fun s4 =>
      some ⟨200, marshalDownloadProgress
        { VideoID := (s1.heap p).VideoID, Progress := (s2.heap p).Progress,
          Completed := (s3.heap p).Completed, Error := (s4.heap p).Error }⟩

/-- A sample environment: the body is the identifier itself, an empty body does
not bind, and the identifiers starting with `bad` do not resolve. -/
def sampleEnv : Env :=
  { ShouldBindJSON := fun body =>
      if body = "" then .error "Key: DownloadRequest.VideoID Error: required"
      else .ok { VideoID := body, AudioOnly := false, Quality := "" },
    GetVideo := fun id =>
      if id = "bad" then .error "extractVideoID failed"
      else .ok { Title := "t", Author := "a", Duration := 9900000000000,
                 Thumbnails := "[]", Formats := "[]" } }

/-! ## The locking discipline -/

/-- How the goroutine at hand holds `progressMux`. -/
inductive Held where
  | free
  | shared
  | exclusive
  deriving DecidableEq, Repr

/-- The statements of the handlers, as far as locking is concerned: the four
mutex calls, a log line (with its line in main.go), a call that does not touch
the registry, a read or write of `progressMap`, the allocation of a
`DownloadProgress`, a read or write of the fields of one, the `go` statement,
and the writing of the response. -/
inductive Op where
  | Lock
  | Unlock
  | RLock
  | RUnlock
  | log (line : Nat)
  | call
  | mapRead
  | mapWrite
  | alloc
  | fieldRead
  | fieldWrite
  | spawn
  | respond (status : Nat)
  deriving DecidableEq, Repr

/-- The lock after a statement. -/
def Op.after : Held → Op → Held
  | _, .Lock => .exclusive
  | _, .RLock => .shared
  | _, .Unlock => .free
  | _, .RUnlock => .free
  | h, _ => h

/-- Each statement of a sequence with the way the lock is held when it runs. -/
def heldAt : Held → List Op → List (Op × Held)
  | _, [] => []
  | h, op :: ops => (op, h) :: heldAt (op.after h) ops

/-- The statements of `Download` in source order (main.go 108-152). -/
def Download.ops (env : Env) (body : String) : List Op :=
  .log 108 :: .call ::
    match env.ShouldBindJSON body with
    | .error _ => [.log 111, .respond 400]
    | .ok req =>
      .call ::
        match env.GetVideo req.VideoID with
        | .error _ => [.log 118, .respond 400]
        | .ok _ =>
          [.Lock, .log 124, .alloc, .mapWrite, .Unlock, .log 130, .spawn, .respond 200]

/-- The statements of a runner in execution order (main.go 134-149), for `fuel`
critical sections: the loop body while `i <= 100`, then the deferred function. -/
def Runner.ops : Nat → Runner → List Op
  | 0, _ => []
  | fuel + 1, r =>
    match r.advance with
    | none => []
    | some (.setProgress _, r2) =>
      [.Lock, .log 145, .mapRead, .fieldWrite, .Unlock, .log 148] ++ Runner.ops fuel r2
    | some (.setCompleted, r2) =>
      [.Lock, .log 136, .mapRead, .fieldWrite, .Unlock, .log 139] ++ Runner.ops fuel r2

/-- The statements of the `/progress/:id` handler in source order (main.go
175-189); `c.JSON(http.StatusOK, progress)` reads the fields of the object and
then writes the response. -/
def progressHandler.ops (videoID : String) (s : State) : List Op :=
  [.log 175, .call, .RLock, .log 179, .mapRead, .RUnlock, .log 182] ++
    match s.progressMap videoID with
    | none => [.respond 404]
    | some _ => [.fieldRead, .respond 200]

/-- The lock when a sequence of statements has run. -/
def heldAfter : Held → List Op → Held
  | h, [] => h
  | h, op :: ops => heldAfter (op.after h) ops

/-- The discipline as the specification words it: reads of the map and of the
fields need the lock (either way), writes need it exclusively, and I/O (a log
line, a call out of the handler, the writing of the response) needs it
released.  The mutex calls, the allocation and the `go` statement are neither
accesses nor I/O. -/
def specRule : Held → Op → Bool
  | _, .Lock => true
  | _, .Unlock => true
  | _, .RLock => true
  | _, .RUnlock => true
  | h, .log _ => h == .free
  | h, .call => h == .free
  | h, .mapRead => h != .free
  | h, .mapWrite => h == .exclusive
  | _, .alloc => true
  | h, .fieldRead => h != .free
  | h, .fieldWrite => h == .exclusive
  | _, .spawn => true
  | h, .respond _ => h == .free

/-- The discipline the handlers follow, statement kind by statement kind.
A lock is taken only when none is held and released only by the matching call.
The log lines 124, 136, 145 and 179 (the ones announcing the lock) are written
while it is held, every other log line while it is released.  Calls out of the
handler (`c.Param`, `ShouldBindJSON`, `GetVideo`), the `go` statement and the
writing of the response happen with the lock released.  Reads of the map need
the lock; writes of the map, the allocation of the stored object and writes of
fields need it exclusively.  The one kind left open is the read of the fields of
a polled object. -/
def lockRule : Held → Op → Bool
  | h, .Lock => h == .free
  | h, .Unlock => h == .exclusive
  | h, .RLock => h == .free
  | h, .RUnlock => h == .shared
  | h, .log line => if line ∈ [124, 136, 145, 179] then h != .free else h == .free
  | h, .call => h == .free
  | h, .mapRead => h != .free
  | h, .mapWrite => h == .exclusive
  | h, .alloc => h == .exclusive
  | _, .fieldRead => true
  | h, .fieldWrite => h == .exclusive
  | h, .spawn => h == .free
  | h, .respond _ => h == .free

/-- Whether every statement of a sequence, started with the lock released,
satisfies a rule. -/
def obeys (rule : Held → Op → Bool) (ops : List Op) : Bool :=
  (heldAt .free ops).all (fun oh => rule oh.2 oh.1)

/-- A sample state with a running job for `x`: a download accepted from the
initial state, then two critical sections of its runner. -/
def sampleRunning : State :=
  ((exec sampleEnv State.init [.download "x", .runner 0, .runner 0]).getD State.init)

/-- A sample state with a finished job for `x`: a download accepted from the
initial state and all seven critical sections of its runner. -/
def sampleDone : State :=
  ((exec sampleEnv State.init
    [.download "x", .runner 0, .runner 0, .runner 0, .runner 0, .runner 0, .runner 0,
     .runner 0]).getD State.init)

/-- A sample state late in a run: a download of `x` accepted from the initial
state and five critical sections of its runner (Progress = 80). -/
def sampleLate : State :=
  ((exec sampleEnv State.init
    [.download "x", .runner 0, .runner 0, .runner 0, .runner 0, .runner 0]).getD State.init)

/-- Well-formed registry states: every stored pointer was allocated, the object
under key `x` carries `VideoID = x`, and every spawned runner has its key in the
map. -/
structure State.WF (s : State) : Prop where
  fresh : ∀ x p, s.progressMap x = some p → p < s.next
  keyed : ∀ x p, s.progressMap x = some p → (s.heap p).VideoID = x
  tracked : ∀ r ∈ s.runners, (s.progressMap r.VideoID).isSome = true

/-- The number of runners for `x` that have not finished. -/
def State.active (s : State) (x : String) : Nat :=
  s.runners.countP (fun r => r.VideoID == x && !r.finished)

/-- The fields of an object after a list of assignments, made in order. -/
def applyWrites (ws : List Write) (j : DownloadProgress) : DownloadProgress :=
  ws.foldl (fun acc w => w.apply acc) j

/-- No runner for `x` other than runner number `k` is unfinished. -/
def State.Sole (s : State) (x : String) (k : Nat) : Prop :=
  ∀ j r, s.runners[j]? = some r → r.VideoID = x → j ≠ k → r.finished = true

/-- A step that left alone everything that concerns `x`: its entry, the object
the entry points to, and the runners spawned for it. -/
structure Frame (x : String) (s t : State) : Prop where
  map_eq : t.progressMap x = s.progressMap x
  heap_eq : ∀ p, s.progressMap x = some p → t.heap p = s.heap p
  runners_iff : ∀ (j : Nat) (r : Runner), r.VideoID = x → (t.runners[j]? = some r ↔ s.runners[j]? = some r)

/-- While an entry is not completed and a single runner for its key is
unfinished, the entry's progress is at most that runner's loop variable. -/
def State.Paced (s : State) : Prop :=
  ∀ x p k r, s.progressMap x = some p → (s.heap p).Completed = false → s.Sole x k →
    s.runners[k]? = some r → r.VideoID = x → r.finished = false → (s.heap p).Progress ≤ r.i

/-- Every runner spawned for `x` has finished. -/
def State.Quiet (s : State) (x : String) : Prop :=
  ∀ (j : Nat) (r : Runner), s.runners[j]? = some r → r.VideoID = x → r.finished = true

/-- What a stretch of the run without an accepted download for `x` keeps of the
object at `p` that `x` points to: the pointer, the identifier and the error
stay, a completed object stays completed, and when every runner for `x` has
finished the whole object stays and no runner for `x` comes back. -/
structure Stable (x : String) (p : Nat) (s t : State) : Prop where
  map_eq : t.progressMap x = some p
  videoID_eq : (t.heap p).VideoID = (s.heap p).VideoID
  error_eq : (t.heap p).Error = (s.heap p).Error
  completed : (s.heap p).Completed = true → (t.heap p).Completed = true
  quiet : s.Quiet x → t.heap p = s.heap p ∧ t.Quiet x

/-! ## Basic facts -/

theorem Write.apply_VideoID (w : Write) (j : DownloadProgress) :
    (w.apply j).VideoID = j.VideoID := by
  cases w <;> rfl

theorem Write.apply_Error (w : Write) (j : DownloadProgress) :
    (w.apply j).Error = j.Error := by
  cases w <;> rfl

theorem Runner.advance_VideoID {r r2 : Runner} {w : Write}
    (h : r.advance = some (w, r2)) : r2.VideoID = r.VideoID := by
  unfold Runner.advance at h
  split_ifs at h <;> simp at h <;> obtain ⟨_, rfl⟩ := h <;> rfl

theorem Download_accepted {env : Env} {body : String} {req : DownloadRequest} {v : Video}
    (hb : env.ShouldBindJSON body = .ok req) (hv : env.GetVideo req.VideoID = .ok v)
    (s : State) :
    Download env body s = (⟨200, [("message", .str "Download started")]⟩, s.register req.VideoID) := by
  simp [Download, hb, hv]

theorem Download_state (env : Env) (body : String) (s : State) :
    (Download env body s).2 = s ∨
      ∃ x, Event.starts env x (.download body) = true ∧ (Download env body s).2 = s.register x := by
  cases hb : env.ShouldBindJSON body with
  | error e => left; simp [Download, hb]
  | ok req =>
    cases hv : env.GetVideo req.VideoID with
    | error e => left; simp [Download, hb, hv]
    | ok v =>
      right
      exact ⟨req.VideoID, by simp [Event.starts, hb, hv], by simp [Download, hb, hv]⟩

theorem WF_init : State.init.WF := by
  constructor <;> simp [State.init]

theorem WF_register {s : State} (h : s.WF) (x : String) : (s.register x).WF := by
  constructor
  · intro y p hy
    simp only [State.register, Function.update_apply] at hy ⊢
    split_ifs at hy with hxy
    · simp at hy; omega
    · have := h.fresh y p hy; omega
  · intro y p hy
    simp only [State.register, Function.update_apply] at hy ⊢
    split_ifs at hy with hxy
    · simp at hy; subst hy; simp [hxy]
    · have := h.fresh y p hy
      have hne : p ≠ s.next := by omega
      simp [hne, h.keyed y p hy]
  · intro r hr
    simp only [State.register, List.mem_append, List.mem_singleton] at hr ⊢
    rcases hr with hr | rfl
    · by_cases hxy : r.VideoID = x
      · simp [Function.update_apply, hxy]
      · simp [Function.update_apply, hxy, h.tracked r hr]
    · simp

theorem WF_runnerStep {s : State} (h : s.WF) (k : Nat) :
    ∃ t, runnerStep s k = some t ∧ t.WF ∧ t.progressMap = s.progressMap ∧ t.next = s.next := by
  cases hk : s.runners[k]? with
  | none => exact ⟨s, by simp [runnerStep, hk], h, rfl, rfl⟩
  | some r =>
    cases ha : r.advance with
    | none => exact ⟨s, by simp [runnerStep, hk, ha], h, rfl, rfl⟩
    | some wr =>
      obtain ⟨w, r2⟩ := wr
      have hmem : r ∈ s.runners := List.getElem?_mem hk
      have ht := h.tracked r hmem
      cases hp : s.progressMap r.VideoID with
      | none => simp [hp] at ht
      | some p =>
        refine ⟨{ s with heap := Function.update s.heap p (w.apply (s.heap p)),
                         runners := s.runners.set k r2 },
          by simp [runnerStep, hk, ha, hp], ?_, rfl, rfl⟩
        constructor
        · exact h.fresh
        · intro y q hy
          simp only [Function.update_apply]
          split_ifs with hq
          · subst hq; rw [Write.apply_VideoID]; exact h.keyed y q hy
          · exact h.keyed y q hy
        · intro r3 hr3
          rcases List.mem_or_eq_of_mem_set hr3 with hr3 | rfl
          · exact h.tracked r3 hr3
          · simpa [Runner.advance_VideoID ha] using ht

theorem WF_step {s : State} (h : s.WF) (env : Env) (e : Event) :
    ∃ t, step env s e = some t ∧ t.WF := by
  cases e with
  | download body =>
    refine ⟨_, rfl, ?_⟩
    rcases Download_state env body s with h1 | ⟨x, _, h1⟩
    · rw [h1]; exact h
    · rw [h1]; exact WF_register h x
  | validate id =>
    refine ⟨_, rfl, ?_⟩
    unfold ValidateByVideoId; split <;> exact h
  | poll id =>
    refine ⟨_, rfl, ?_⟩
    unfold progressHandler; split <;> exact h
  | runner k =>
    obtain ⟨t, ht, hw, _, _⟩ := WF_runnerStep h k
    exact ⟨t, ht, hw⟩

theorem WF_exec {s : State} (h : s.WF) (env : Env) (es : List Event) :
    ∃ t, exec env s es = some t ∧ t.WF := by
  induction es generalizing s with
  | nil => exact ⟨s, rfl, h⟩
  | cons e es ih =>
    obtain ⟨t, ht, hw⟩ := WF_step h env e
    obtain ⟨u, hu, hwu⟩ := ih hw
    exact ⟨u, by simp [exec, ht, hu], hwu⟩

/-- The three shapes of a step from a well-formed state: nothing changes, a
download is accepted, or a runner makes an assignment through the map. -/
theorem step_cases {s : State} (h : s.WF) (env : Env) (e : Event) :
    step env s e = some s ∨
    (∃ y, e.starts env y = true ∧ step env s e = some (s.register y)) ∨
    (∃ k r w r2 q, e = .runner k ∧ s.runners[k]? = some r ∧ r.advance = some (w, r2) ∧
      s.progressMap r.VideoID = some q ∧
      step env s e = some { s with heap := Function.update s.heap q (w.apply (s.heap q)),
                                   runners := s.runners.set k r2 }) := by
  cases e with
  | download body =>
    rcases Download_state env body s with h1 | ⟨x, hx, h1⟩
    · left; simp [step, h1]
    · right; left; exact ⟨x, hx, by simp [step, h1]⟩
  | validate id =>
    left; simp only [step, ValidateByVideoId]; split <;> rfl
  | poll id =>
    left; simp only [step, progressHandler]; split <;> rfl
  | runner k =>
    cases hk : s.runners[k]? with
    | none => left; simp [step, runnerStep, hk]
    | some r =>
      cases ha : r.advance with
      | none => left; simp [step, runnerStep, hk, ha]
      | some wr =>
        obtain ⟨w, r2⟩ := wr
        have ht := h.tracked r (List.getElem?_mem hk)
        cases hp : s.progressMap r.VideoID with
        | none => simp [hp] at ht
        | some q =>
          right; right
          exact ⟨k, r, w, r2, q, rfl, hk, ha, hp, by simp [step, runnerStep, hk, ha, hp]⟩

theorem exec_cons (env : Env) (s t : State) (e : Event) (es : List Event)
    (h : step env s e = some t) : exec env s (e :: es) = exec env t es := by
  simp [exec, h]

theorem Runner.advance_spec {r r2 : Runner} {w : Write} (h : r.advance = some (w, r2)) :
    r.finished = false ∧
      ((r.i ≤ 100 ∧ w = .setProgress r.i ∧ r2 = { r with i := r.i + 20 }) ∨
       (100 < r.i ∧ w = .setCompleted ∧ r2 = { r with finished := true })) := by
  unfold Runner.advance at h
  split_ifs at h with h1 h2
  · simp at h
    exact ⟨by simpa using h1, Or.inl ⟨h2, h.1.symm, h.2.symm⟩⟩
  · simp at h
    exact ⟨by simpa using h1, Or.inr ⟨by omega, h.1.symm, h.2.symm⟩⟩

theorem Runner.advance_finished {r : Runner} (h : r.finished = true) : r.advance = none := by
  simp [Runner.advance, h]

theorem Frame.of_register {s : State} (h : s.WF) {x y : String} (hxy : y ≠ x) :
    Frame x s (s.register y) := by
  constructor
  · simp [State.register, Function.update_apply, Ne.symm hxy]
  · intro p hp
    have := h.fresh x p hp
    have hne : p ≠ s.next := by omega
    simp [State.register, Function.update_apply, hne]
  · intro j r hr
    simp only [State.register, List.getElem?_append]
    split_ifs with hj
    · rfl
    · constructor
      · intro h1
        have hj0 : j - s.runners.length = 0 := by
          rcases Nat.eq_zero_or_pos (j - s.runners.length) with h0 | h0
          · exact h0
          · rw [List.getElem?_eq_none (by simp; omega)] at h1; simp at h1
        rw [hj0] at h1
        simp at h1
        subst h1
        exact absurd hr hxy
      · intro h1
        rw [List.getElem?_eq_none (by omega)] at h1
        simp at h1

theorem Frame.of_write {s : State} (h : s.WF) {x : String} {k q : Nat} {r r2 : Runner}
    {w : Write} (hk : s.runners[k]? = some r) (ha : r.advance = some (w, r2))
    (hq : s.progressMap r.VideoID = some q) (hx : r.VideoID ≠ x) :
    Frame x s { s with heap := Function.update s.heap q (w.apply (s.heap q)),
                       runners := s.runners.set k r2 } := by
  constructor
  · rfl
  · intro p hp
    have hne : p ≠ q := by
      rintro rfl
      exact hx ((h.keyed _ _ hq).symm.trans (h.keyed _ _ hp))
    simp [Function.update_apply, hne]
  · intro j r3 hr3
    simp only [List.getElem?_set]
    split_ifs with hkj hlt
    · subst hkj
      constructor
      · intro h1
        simp at h1
        subst h1
        exact absurd ((Runner.advance_VideoID ha).symm.trans hr3) hx
      · intro h1
        rw [hk] at h1
        simp at h1
        subst h1
        exact absurd hr3 hx
    · subst hkj
      rw [List.getElem?_eq_none (by omega)] at hk
      simp at hk
    · rfl

/-- The shapes of a step from a well-formed state, seen from the key `x`: the
step leaves `x` alone, or it is an accepted download for `x`, or it is an
assignment by a runner spawned for `x`. -/
theorem step_cases_at {s : State} (h : s.WF) (env : Env) (e : Event) (x : String) :
    ∃ t, step env s e = some t ∧ t.WF ∧
      (Frame x s t ∨
       (e.starts env x = true ∧ t = s.register x) ∨
       (∃ k r w r2 p, e = .runner k ∧ s.runners[k]? = some r ∧ r.VideoID = x ∧
          r.advance = some (w, r2) ∧ s.progressMap x = some p ∧
          t = { s with heap := Function.update s.heap p (w.apply (s.heap p)),
                       runners := s.runners.set k r2 })) := by
  obtain ⟨t, ht, hwt⟩ := WF_step h env e
  refine ⟨t, ht, hwt, ?_⟩
  rcases step_cases h env e with h1 | ⟨y, hy, h1⟩ | ⟨k, r, w, r2, q, he, hk, ha, hq, h1⟩
  · rw [ht] at h1
    cases h1
    exact Or.inl ⟨rfl, fun _ _ => rfl, fun _ _ _ => Iff.rfl⟩
  · rw [ht] at h1
    cases h1
    by_cases hxy : y = x
    · subst hxy
      exact Or.inr (Or.inl ⟨hy, rfl⟩)
    · exact Or.inl (Frame.of_register h hxy)
  · rw [ht] at h1
    cases h1
    by_cases hx : r.VideoID = x
    · subst hx
      exact Or.inr (Or.inr ⟨k, r, w, r2, q, he, hk, rfl, ha, hq, rfl⟩)
    · exact Or.inl (Frame.of_write h hk ha hq hx)

theorem State.Sole.frame {x : String} {s t : State} {k : Nat} (hf : Frame x s t)
    (h : s.Sole x k) : t.Sole x k := by
  intro j r hj hr hne
  exact h j r ((hf.runners_iff j r hr).1 hj) hr hne

theorem Runner.writes_of_advance_none {r : Runner} (h : r.advance = none) (n : Nat) :
    Runner.writes n r = [] := by
  cases n <;> simp [Runner.writes, h]

theorem Runner.writes_fresh (x : String) (fuel : Nat) (h : 7 ≤ fuel) :
    Runner.writes fuel { VideoID := x, i := 0, finished := false } =
      [.setProgress 0, .setProgress 20, .setProgress 40, .setProgress 60, .setProgress 80,
       .setProgress 100, .setCompleted] := by
  obtain ⟨n, rfl⟩ : ∃ n, fuel = n + 7 := ⟨fuel - 7, by omega⟩
  simp [Runner.writes, Runner.advance]
  exact Runner.writes_of_advance_none (by simp [Runner.advance]) n

theorem State.Sole.of_set {s : State} {x : String} {k : Nat} (h : s.Sole x k) (r2 : Runner) :
    State.Sole { s with runners := s.runners.set k r2 } x k := by
  intro j r3 hj hr3 hne
  have hj2 : s.runners[j]? = some r3 := by
    simpa [List.getElem?_set_ne (Ne.symm hne)] using hj
  exact h j r3 hj2 hr3 hne

/-- A runner that is the only unfinished one for its key, run along a schedule
that accepts no download for that key: the schedule runs through, the entry
keeps its pointer, and the object holds what the runner's assignments, as many
as the schedule gave it steps, make of it. -/
theorem sole_run (env : Env) (x : String) (k p : Nat) (es : List Event) :
    ∀ (t : State) (r : Runner), t.WF → t.progressMap x = some p → t.runners[k]? = some r →
      r.VideoID = x → t.Sole x k → (∀ e ∈ es, e.starts env x = false) →
      ∃ t2, exec env t es = some t2 ∧ t2.progressMap x = some p ∧
        t2.heap p = applyWrites (Runner.writes (es.count (.runner k)) r) (t.heap p) := by
  induction es with
  | nil =>
    intro t r _ hp _ _ _ _
    exact ⟨t, rfl, hp, by simp [Runner.writes, applyWrites]⟩
  | cons e es ih =>
    intro t r hw hp hk hr hsole hes
    have hes2 : ∀ e ∈ es, e.starts env x = false := fun e he => hes e (List.mem_cons_of_mem _ he)
    by_cases hek : e = .runner k
    · subst hek
      rw [List.count_cons_self]
      cases ha : r.advance with
      | none =>
        have hst : step env t (.runner k) = some t := by simp [step, runnerStep, hk, ha]
        obtain ⟨t2, h1, h2, h3⟩ := ih t r hw hp hk hr hsole hes2
        refine ⟨t2, by rw [exec_cons _ _ _ _ _ hst]; exact h1, h2, ?_⟩
        rw [h3, Runner.writes_of_advance_none ha, Runner.writes_of_advance_none ha]
      | some wr =>
        obtain ⟨w, r2⟩ := wr
        have hp2 : t.progressMap r.VideoID = some p := by rw [hr]; exact hp
        obtain ⟨t1, hst, hw1⟩ := WF_step hw env (.runner k)
        have ht1 : t1 = { t with heap := Function.update t.heap p (w.apply (t.heap p)),
                                 runners := t.runners.set k r2 } := by
          simp [step, runnerStep, hk, ha, hp2] at hst
          exact hst.symm
        have hlt : k < t.runners.length := by
          rcases List.getElem?_eq_some.1 hk with ⟨hlt, _⟩
          exact hlt
        have hk1 : t1.runners[k]? = some r2 := by
          rw [ht1]; simp [List.getElem?_set_self hlt]
        have hsole1 : t1.Sole x k := by rw [ht1]; exact hsole.of_set r2
        have hp1 : t1.progressMap x = some p := by rw [ht1]; exact hp
        obtain ⟨t2, h1, h2, h3⟩ :=
          ih t1 r2 hw1 hp1 hk1 ((Runner.advance_VideoID ha).trans hr) hsole1 hes2
        refine ⟨t2, by rw [exec_cons _ _ _ _ _ hst]; exact h1, h2, ?_⟩
        rw [h3, ht1]
        simp [Runner.writes, ha, applyWrites]
    · rw [List.count_cons_of_ne (Ne.symm hek)]
      obtain ⟨t1, hst, hw1, hc⟩ := step_cases_at hw env e x
      rcases hc with hf | ⟨hstart, _⟩ | ⟨k2, r3, w, r2, q, he, hk2, hr3, ha, _, _⟩
      · have hp1 : t1.progressMap x = some p := by rw [hf.map_eq]; exact hp
        have hk1 : t1.runners[k]? = some r := (hf.runners_iff k r hr).2 hk
        obtain ⟨t2, h1, h2, h3⟩ := ih t1 r hw1 hp1 hk1 hr (hsole.frame hf) hes2
        refine ⟨t2, by rw [exec_cons _ _ _ _ _ hst]; exact h1, h2, ?_⟩
        rw [h3, hf.heap_eq p hp]
      · rw [hes e (List.mem_cons_self _ _)] at hstart
        exact Bool.noConfusion hstart
      · subst he
        have hne : k2 ≠ k := fun h => hek (by rw [h])
        have hfin := hsole k2 r3 hk2 hr3 hne
        rw [Runner.advance_finished hfin] at ha
        exact Option.noConfusion ha

theorem State.Sole.of_active_zero {s : State} {x : String} (h : s.active x = 0) (k : Nat) :
    (s.register x).Sole x s.runners.length ∧ s.Sole x k := by
  have hall : ∀ r ∈ s.runners, r.VideoID = x → r.finished = true := by
    intro r hr hx
    have := (List.countP_eq_zero.1 h) r hr
    simpa [hx] using this
  constructor
  · intro j r hj hr hne
    simp only [State.register, List.getElem?_append] at hj
    split_ifs at hj with hlt
    · exact hall r (List.getElem?_mem hj) hr
    · rw [List.getElem?_eq_none (by simp; omega)] at hj
      exact Option.noConfusion hj
  · intro j r hj hr _
    exact hall r (List.getElem?_mem hj) hr

theorem marshalDownloadProgress_injective {a b : DownloadProgress}
    (h : marshalDownloadProgress a = marshalDownloadProgress b) : a = b := by
  cases a; cases b
  simp [marshalDownloadProgress] at h
  simp [h]

theorem poll_ok_iff (s : State) (x : String) (j : DownloadProgress) :
    poll s x = ⟨200, marshalDownloadProgress j⟩ ↔
      ∃ p, s.progressMap x = some p ∧ s.heap p = j := by
  unfold poll progressHandler
  cases hp : s.progressMap x with
  | none => simp
  | some p =>
    simp only [Response.mk.injEq, true_and, Option.some.injEq, exists_eq_left']
    exact ⟨marshalDownloadProgress_injective, fun h => by rw [h]⟩

theorem exists_sole_of_countP_le_one (p : Runner → Bool) (l : List Runner)
    (h : l.countP p ≤ 1) :
    ∃ k : Nat, ∀ (j : Nat) (r : Runner), l[j]? = some r → j ≠ k → p r = false := by
  induction l with
  | nil => exact ⟨0, fun j r hj => by simp at hj⟩
  | cons a l ih =>
    by_cases ha : p a = true
    · have h0 : l.countP p = 0 := by
        rw [List.countP_cons_of_pos _ _ ha] at h; omega
      refine ⟨0, ?_⟩
      intro j r hj hne
      cases j with
      | zero => exact absurd rfl hne
      | succ j =>
        simp at hj
        have := (List.countP_eq_zero.1 h0) r (List.getElem?_mem hj)
        simpa using this
    · rw [List.countP_cons_of_neg _ _ ha] at h
      obtain ⟨k, hk⟩ := ih h
      refine ⟨k + 1, ?_⟩
      intro j r hj hne
      cases j with
      | zero =>
        simp at hj
        subst hj
        simpa using ha
      | succ j =>
        simp at hj
        exact hk j r hj (by omega)

theorem State.Sole.of_active_le_one {s : State} {x : String} (h : s.active x ≤ 1) :
    ∃ k, s.Sole x k := by
  obtain ⟨k, hk⟩ := exists_sole_of_countP_le_one _ _ h
  refine ⟨k, ?_⟩
  intro j r hj hr hne
  have := hk j r hj hne
  simpa [hr] using this

theorem Paced_init : State.init.Paced := by
  intro x p k r hp
  simp [State.init] at hp

theorem Paced_step {s t : State} (hw : s.WF) (hp : s.Paced) (env : Env) (e : Event)
    (ht : step env s e = some t) : t.Paced := by
  intro x p k r hmap hc hsole hk hr hfin
  obtain ⟨t1, ht1, _, hcase⟩ := step_cases_at hw env e x
  rw [ht] at ht1
  cases ht1
  rcases hcase with hf | ⟨_, hreg⟩ | ⟨k2, r3, w, r2, q, _, hk2, hr3, ha, hq, hwr⟩
  · have hmap0 : s.progressMap x = some p := by rw [← hf.map_eq]; exact hmap
    have hheap := hf.heap_eq p hmap0
    rw [hheap] at hc ⊢
    refine hp x p k r hmap0 hc ?_ ((hf.runners_iff k r hr).1 hk) hr hfin
    intro j r4 hj hr4 hne
    exact hsole j r4 ((hf.runners_iff j r4 hr4).2 hj) hr4 hne
  · subst hreg
    have hpn : p = s.next := by
      simp [State.register] at hmap; exact hmap.symm
    subst hpn
    by_cases hkl : k = s.runners.length
    · subst hkl
      simp [State.register] at hk
      subst hk
      simp [State.register]
    · have := hsole s.runners.length { VideoID := x, i := 0, finished := false }
        (by simp [State.register]) rfl (Ne.symm hkl)
      simp at this
  · subst hwr
    have hlt : k2 < s.runners.length := by
      rcases List.getElem?_eq_some.1 hk2 with ⟨hlt, _⟩
      exact hlt
    have hpq : p = q := by
      have : s.progressMap x = some p := hmap
      rw [hq] at this
      exact (Option.some.inj this).symm
    subst hpq
    obtain ⟨hfin3, hcase3⟩ := Runner.advance_spec ha
    rcases hcase3 with ⟨_, hw3, hr2⟩ | ⟨_, hw3, _⟩
    · have hk2k : k2 = k := by
        by_contra hne
        have := hsole k2 r2 (by simp [List.getElem?_set_self hlt])
          ((Runner.advance_VideoID ha).trans hr3) hne
        rw [hr2] at this
        simp [hfin3] at this
      subst hk2k
      have hrr : r = r2 := by
        simp [List.getElem?_set_self hlt] at hk
        exact hk.symm
      subst hrr
      subst hw3
      rw [hr2]
      simp [Write.apply]
    · subst hw3
      simp [Write.apply] at hc

theorem Paced_exec (env : Env) (es : List Event) :
    ∀ s t, s.WF → s.Paced → exec env s es = some t → t.WF ∧ t.Paced := by
  induction es with
  | nil =>
    intro s t hw hp h
    simp [exec] at h
    subst h
    exact ⟨hw, hp⟩
  | cons e es ih =>
    intro s t hw hp h
    obtain ⟨s1, hs1, hw1⟩ := WF_step hw env e
    rw [exec_cons _ _ _ _ _ hs1] at h
    exact ih s1 t hw1 (Paced_step hw hp env e hs1) h

/-- Along a schedule that accepts no download for `x`, with no unfinished runner
for `x` other than number `k`, whose loop variable is at least the entry's
progress: the schedule runs through, the entry keeps its pointer and its progress
does not go down. -/
theorem paced_run (env : Env) (x : String) (k p : Nat) (es : List Event) :
    ∀ t : State, t.WF → t.progressMap x = some p → t.Sole x k →
      (∀ r, t.runners[k]? = some r → r.VideoID = x → r.finished = false →
        (t.heap p).Progress ≤ r.i) →
      (∀ e ∈ es, e.starts env x = false) →
      ∃ t2, exec env t es = some t2 ∧ t2.progressMap x = some p ∧
        (t.heap p).Progress ≤ (t2.heap p).Progress := by
  induction es with
  | nil =>
    intro t _ hp _ _ _
    exact ⟨t, rfl, hp, le_refl _⟩
  | cons e es ih =>
    intro t hw hp hsole hle hes
    have hes2 : ∀ e ∈ es, e.starts env x = false := fun e he => hes e (List.mem_cons_of_mem _ he)
    obtain ⟨t1, hst, hw1, hc⟩ := step_cases_at hw env e x
    rcases hc with hf | ⟨hstart, _⟩ | ⟨k2, r3, w, r2, q, _, hk2, hr3, ha, hq, hwr⟩
    · have hp1 : t1.progressMap x = some p := by rw [hf.map_eq]; exact hp
      have hheap := hf.heap_eq p hp
      obtain ⟨t2, h1, h2, h3⟩ := ih t1 hw1 hp1 (hsole.frame hf)
        (fun r hk hr hfin => by
          rw [hheap]; exact hle r ((hf.runners_iff k r hr).1 hk) hr hfin) hes2
      refine ⟨t2, by rw [exec_cons _ _ _ _ _ hst]; exact h1, h2, ?_⟩
      rw [← hheap]; exact h3
    · rw [hes e (List.mem_cons_self _ _)] at hstart
      exact Bool.noConfusion hstart
    · have hpq : p = q := by
        rw [hq] at hp
        exact (Option.some.inj hp).symm
      subst hpq
      have hlt : k2 < t.runners.length := by
        rcases List.getElem?_eq_some.1 hk2 with ⟨hlt, _⟩
        exact hlt
      obtain ⟨hfin3, hcase3⟩ := Runner.advance_spec ha
      have hk2k : k2 = k := by
        by_contra hne
        have := hsole k2 r3 hk2 hr3 hne
        simp [hfin3] at this
      subst hk2k
      have hle3 := hle r3 hk2 hr3 hfin3
      have hp1 : t1.progressMap x = some p := by rw [hwr]; exact hq
      have hsole1 : t1.Sole x k2 := by rw [hwr]; exact hsole.of_set r2
      have hk1 : t1.runners[k2]? = some r2 := by
        rw [hwr]; simp [List.getElem?_set_self hlt]
      have hstep : (t.heap p).Progress ≤ (t1.heap p).Progress ∧
          (r2.finished = false → (t1.heap p).Progress ≤ r2.i) := by
        rcases hcase3 with ⟨_, hw3, hr2⟩ | ⟨_, hw3, hr2⟩
        · subst hw3
          rw [hwr, hr2]
          simp [Write.apply]
          exact hle3
        · subst hw3
          rw [hwr, hr2]
          simp [Write.apply]
      obtain ⟨t2, h1, h2, h3⟩ := ih t1 hw1 hp1 hsole1
        (fun r hk hr hfin => by
          rw [hk1] at hk
          cases hk
          exact hstep.2 hfin) hes2
      exact ⟨t2, by rw [exec_cons _ _ _ _ _ hst]; exact h1, h2, le_trans hstep.1 h3⟩

theorem Write.apply_Completed (w : Write) (j : DownloadProgress) (h : j.Completed = true) :
    (w.apply j).Completed = true := by
  cases w <;> simp [Write.apply, h]

theorem exec_append (env : Env) (s : State) (l1 l2 : List Event) :
    exec env s (l1 ++ l2) = (exec env s l1).bind (fun t => exec env t l2) := by
  induction l1 generalizing s with
  | nil => rfl
  | cons e l1 ih =>
    simp only [List.cons_append, exec]
    cases step env s e with
    | none => rfl
    | some t => exact ih t

theorem State.Quiet.of_no_active {s : State} {x : String} (h : s.active x = 0) :
    s.Quiet x := by
  intro j r hj hr
  have := (List.countP_eq_zero.1 h) r (List.getElem?_mem hj)
  simpa [hr] using this

theorem Stable.refl {x : String} {p : Nat} {s : State} (hp : s.progressMap x = some p) :
    Stable x p s s :=
  ⟨hp, rfl, rfl, fun h => h, fun h => ⟨rfl, h⟩⟩

theorem Stable.trans {x : String} {p : Nat} {s t u : State} (h1 : Stable x p s t)
    (h2 : Stable x p t u) : Stable x p s u := by
  refine ⟨h2.map_eq, h2.videoID_eq.trans h1.videoID_eq, h2.error_eq.trans h1.error_eq,
    fun h => h2.completed (h1.completed h), ?_⟩
  intro hq
  obtain ⟨e1, q1⟩ := h1.quiet hq
  obtain ⟨e2, q2⟩ := h2.quiet q1
  exact ⟨e2.trans e1, q2⟩

/-- One step that is not an accepted download for `x` is stable for `x`. -/
theorem Stable.of_step {t : State} (hw : t.WF) (env : Env) (e : Event) {x : String} {p : Nat}
    (hp : t.progressMap x = some p) (he : e.starts env x = false) :
    ∃ t1, step env t e = some t1 ∧ t1.WF ∧ Stable x p t t1 := by
  obtain ⟨t1, hst, hw1, hcase⟩ := step_cases_at hw env e x
  refine ⟨t1, hst, hw1, ?_⟩
  rcases hcase with hf | ⟨hstart, _⟩ | ⟨k2, r3, w, r2, q, _, hk2, hr3, ha, hq, hwr⟩
  · have hheap := hf.heap_eq p hp
    refine ⟨by rw [hf.map_eq]; exact hp, by rw [hheap], by rw [hheap],
      fun h => by rw [hheap]; exact h, ?_⟩
    intro hquiet
    exact ⟨hheap, fun j r hj hr => hquiet j r ((hf.runners_iff j r hr).1 hj) hr⟩
  · rw [he] at hstart
    exact Bool.noConfusion hstart
  · have hpq : p = q := by
      rw [hq] at hp
      exact (Option.some.inj hp).symm
    subst hpq
    have hheap : t1.heap p = w.apply (t.heap p) := by rw [hwr]; simp
    refine ⟨by rw [hwr]; exact hq, by rw [hheap, Write.apply_VideoID],
      by rw [hheap, Write.apply_Error],
      fun h => by rw [hheap]; exact Write.apply_Completed w _ h, ?_⟩
    intro hquiet
    have hfin := hquiet k2 r3 hk2 hr3
    rw [Runner.advance_finished hfin] at ha
    exact Option.noConfusion ha

/-- A schedule that accepts no download for `x` runs through from a well-formed
state and is stable for `x`. -/
theorem stable_run (env : Env) (x : String) (p : Nat) (es : List Event) :
    ∀ t : State, t.WF → t.progressMap x = some p →
      (∀ e ∈ es, e.starts env x = false) →
      ∃ t2, exec env t es = some t2 ∧ t2.WF ∧ Stable x p t t2 := by
  induction es with
  | nil =>
    intro t hw hp _
    exact ⟨t, rfl, hw, Stable.refl hp⟩
  | cons e es ih =>
    intro t hw hp hes
    obtain ⟨t1, hst, hw1, h1⟩ := Stable.of_step hw env e hp (hes e (List.mem_cons_self _ _))
    obtain ⟨t2, hex, hw2, h2⟩ := ih t1 hw1 h1.map_eq
      (fun e he => hes e (List.mem_cons_of_mem _ he))
    exact ⟨t2, by rw [exec_cons _ _ _ _ _ hst]; exact hex, hw2, h1.trans h2⟩

/-- A poll whose lookup finds the pointer `p`, interleaved with schedules that
accept no download for its key: the four schedules run through, each is stable
for the key, and the response carries the four fields as they are read. -/
theorem pollInFlight_stable (env : Env) (x : String) (p : Nat) (s : State)
    (a b c d : List Event) (hw : s.WF) (hp : s.progressMap x = some p)
    (ha : ∀ e ∈ a, e.starts env x = false) (hb : ∀ e ∈ b, e.starts env x = false)
    (hc : ∀ e ∈ c, e.starts env x = false) (hd : ∀ e ∈ d, e.starts env x = false) :
    ∃ s1 s2 s3 s4, exec env s a = some s1 ∧ exec env s1 b = some s2 ∧
      exec env s2 c = some s3 ∧ exec env s3 d = some s4 ∧ s4.WF ∧
      Stable x p s s1 ∧ Stable x p s1 s2 ∧ Stable x p s2 s3 ∧ Stable x p s3 s4 ∧
      pollInFlight env x s a b c d = some ⟨200, marshalDownloadProgress
        { VideoID := (s1.heap p).VideoID, Progress := (s2.heap p).Progress,
          Completed := (s3.heap p).Completed, Error := (s4.heap p).Error }⟩ := by
  obtain ⟨s1, h1, hw1, st1⟩ := stable_run env x p a s hw hp ha
  obtain ⟨s2, h2, hw2, st2⟩ := stable_run env x p b s1 hw1 st1.map_eq hb
  obtain ⟨s3, h3, hw3, st3⟩ := stable_run env x p c s2 hw2 st2.map_eq hc
  obtain ⟨s4, h4, hw4, st4⟩ := stable_run env x p d s3 hw3 st3.map_eq hd
  refine ⟨s1, s2, s3, s4, h1, h2, h3, h4, hw4, st1, st2, st3, st4, ?_⟩
  simp [pollInFlight, hp, h1, h2, h3, h4]

/-- With nothing interleaved the poll in flight is the sequential handler. -/
theorem pollInFlight_nil (env : Env) (x : String) (s : State) :
    pollInFlight env x s [] [] [] [] = some (progressHandler x s).1 := by
  unfold pollInFlight progressHandler
  cases s.progressMap x <;> simp [exec]

/-- Along any schedule from a well-formed state the keys present stay present
and the runners spawned stay in the system with their key. -/
theorem grow_run (env : Env) (es : List Event) :
    ∀ t : State, t.WF →
      ∃ t2, exec env t es = some t2 ∧ t2.WF ∧
        (∀ x, (t.progressMap x).isSome = true → (t2.progressMap x).isSome = true) ∧
        (∀ (k : Nat) (r : Runner), t.runners[k]? = some r →
          ∃ r2, t2.runners[k]? = some r2 ∧ r2.VideoID = r.VideoID) := by
  induction es with
  | nil =>
    intro t hw
    exact ⟨t, rfl, hw, fun _ h => h, fun k r h => ⟨r, h, rfl⟩⟩
  | cons e es ih =>
    intro t hw
    obtain ⟨t1, hst, hw1⟩ := WF_step hw env e
    have key : (∀ x, (t.progressMap x).isSome = true → (t1.progressMap x).isSome = true) ∧
        (∀ (k : Nat) (r : Runner), t.runners[k]? = some r →
          ∃ r2, t1.runners[k]? = some r2 ∧ r2.VideoID = r.VideoID) := by
      rcases step_cases hw env e with h1 | ⟨y, _, h1⟩ | ⟨k2, r3, w, r2, q, _, hk2, ha, _, h1⟩
      · rw [hst] at h1; cases h1
        exact ⟨fun _ h => h, fun k r h => ⟨r, h, rfl⟩⟩
      · rw [hst] at h1; cases h1
        refine ⟨?_, ?_⟩
        · intro x hx
          by_cases hxy : x = y
          · simp [State.register, hxy]
          · simpa [State.register, Function.update_apply, hxy] using hx
        · intro k r hk
          have hlt : k < t.runners.length := by
            rcases List.getElem?_eq_some.1 hk with ⟨hlt, _⟩
            exact hlt
          refine ⟨r, ?_, rfl⟩
          simp only [State.register]
          rw [List.getElem?_append_left hlt]
          exact hk
      · rw [hst] at h1; cases h1
        refine ⟨fun _ h => h, ?_⟩
        intro k r hk
        by_cases hkk : k2 = k
        · subst hkk
          have hlt : k2 < t.runners.length := by
            rcases List.getElem?_eq_some.1 hk with ⟨hlt, _⟩
            exact hlt
          rw [hk2] at hk
          cases hk
          exact ⟨r2, by simp [List.getElem?_set_self hlt], Runner.advance_VideoID ha⟩
        · exact ⟨r, by simp [List.getElem?_set_ne hkk, hk], rfl⟩
    obtain ⟨t2, hex, hw2, g1, g2⟩ := ih t1 hw1
    refine ⟨t2, by rw [exec_cons _ _ _ _ _ hst]; exact hex, hw2, fun x hx => g1 x (key.1 x hx), ?_⟩
    intro k r hk
    obtain ⟨r1, hk1, hv1⟩ := key.2 k r hk
    obtain ⟨r2, hk2, hv2⟩ := g2 k r1 hk1
    exact ⟨r2, hk2, hv2.trans hv1⟩

/-- A step of an unfinished runner spawned for `x` assigns to the object that
`x` points to at that moment, and a poll right after shows the assignment. -/
theorem runner_same_key {t : State} (env : Env) {x : String} {k p : Nat} {r r2 : Runner}
    {w : Write} (hk : t.runners[k]? = some r) (hr : r.VideoID = x)
    (ha : r.advance = some (w, r2)) (hp : t.progressMap x = some p) :
    ∃ t2, step env t (.runner k) = some t2 ∧ t2.progressMap = t.progressMap ∧
      t2.heap p = w.apply (t.heap p) ∧ (∀ q, q ≠ p → t2.heap q = t.heap q) ∧
      poll t2 x = ⟨200, marshalDownloadProgress (w.apply (t.heap p))⟩ := by
  have hp2 : t.progressMap r.VideoID = some p := by rw [hr]; exact hp
  have hst : step env t (.runner k) =
      some { t with heap := Function.update t.heap p (w.apply (t.heap p)),
                    runners := t.runners.set k r2 } := by
    simp only [step, runnerStep, hk, ha, hp2]
  refine ⟨_, hst, rfl, by simp, ?_, ?_⟩
  · intro q hq
    simp [Function.update_apply, hq]
  · simp [poll, progressHandler, hp]

/-- From a well-formed state in which no key points to the allocated address
`a`: every schedule runs through, the object at `a` is never assigned to, and no
key ever points to `a` again. -/
theorem unreachable_run (env : Env) (a : Nat) (es : List Event) :
    ∀ t : State, t.WF → a < t.next → (∀ y, t.progressMap y ≠ some a) →
      ∃ t2, exec env t es = some t2 ∧ t2.WF ∧ t2.heap a = t.heap a ∧
        ∀ y, t2.progressMap y ≠ some a := by
  induction es with
  | nil =>
    intro t hw _ hno
    exact ⟨t, rfl, hw, rfl, hno⟩
  | cons e es ih =>
    intro t hw hlt hno
    obtain ⟨t1, hst, hw1⟩ := WF_step hw env e
    have key : a < t1.next ∧ (∀ y, t1.progressMap y ≠ some a) ∧ t1.heap a = t.heap a := by
      rcases step_cases hw env e with h1 | ⟨y, _, h1⟩ | ⟨k, r, w, r2, q, _, _, _, hq, h1⟩
      · rw [hst] at h1; cases h1
        exact ⟨hlt, hno, rfl⟩
      · rw [hst] at h1; cases h1
        refine ⟨by simp [State.register]; omega, ?_, ?_⟩
        · intro z hz
          simp only [State.register, Function.update_apply] at hz
          split_ifs at hz with hzy
          · simp at hz; omega
          · exact hno z hz
        · have hne : a ≠ t.next := by omega
          simp [State.register, Function.update_apply, hne]
      · rw [hst] at h1; cases h1
        refine ⟨hlt, hno, ?_⟩
        have hne : a ≠ q := by
          rintro rfl
          exact hno _ hq
        simp [Function.update_apply, hne]
    obtain ⟨t2, h1, h2, h3, h4⟩ := ih t1 hw1 key.1 key.2.1
    exact ⟨t2, by rw [exec_cons _ _ _ _ _ hst]; exact h1, h2, by rw [h3, key.2.2], h4⟩

theorem Frame.poll_eq {x : String} {s t : State} (hf : Frame x s t) : poll t x = poll s x := by
  unfold poll progressHandler
  rw [hf.map_eq]
  cases hp : s.progressMap x with
  | none => rfl
  | some p => simp [hf.heap_eq p hp]

/-- A step of a runner spawned for another key leaves a poll of `x` as it was. -/
theorem runner_other_key {t : State} (hw : t.WF) (env : Env) (x : String) (k : Nat) (r : Runner)
    (hk : t.runners[k]? = some r) (hr : r.VideoID ≠ x) :
    ∃ t2, step env t (.runner k) = some t2 ∧ poll t2 x = poll t x := by
  obtain ⟨t2, hst, _, hcase⟩ := step_cases_at hw env (.runner k) x
  refine ⟨t2, hst, ?_⟩
  rcases hcase with hf | ⟨hstart, _⟩ | ⟨k2, r3, _, _, _, he, hk2, hr3, _, _, _⟩
  · exact hf.poll_eq
  · exact Bool.noConfusion hstart
  · cases he
    rw [hk] at hk2
    cases hk2
    exact absurd hr3 hr

/-! ## The handlers, one request at a time -/

/-- C1: in every registry state, whatever it holds for X, an accepted
start-download for X answers 200, and a poll of X taken right after the
registration, before any runner step, answers 200 with VideoID = X, Progress = 0,
Completed = false and an empty Error; the key X now points to the freshly
allocated object, so nothing of a prior entry is kept. -/
theorem poll_after_download (env : Env) (body : String) (s : State)
    (req : DownloadRequest) (v : Video)
    (hb : env.ShouldBindJSON body = .ok req) (hv : env.GetVideo req.VideoID = .ok v) :
    (Download env body s).1 = ⟨200, [("message", .str "Download started")]⟩ ∧
    poll (Download env body s).2 req.VideoID =
      ⟨200, marshalDownloadProgress
        { VideoID := req.VideoID, Progress := 0, Completed := false, Error := "" }⟩ ∧
    (Download env body s).2.progressMap req.VideoID = some s.next := by
  rw [Download_accepted hb hv]
  simp [poll, progressHandler, State.register]

/-- A state that already holds a running job for `x`: one accepted download and
two runner steps. -/
theorem poll_after_download_witness :
    sampleEnv.ShouldBindJSON "x" = .ok { VideoID := "x", AudioOnly := false, Quality := "" } ∧
    poll (Download sampleEnv "x" sampleRunning).2 "x" =
      ⟨200, marshalDownloadProgress
        { VideoID := "x", Progress := 0, Completed := false, Error := "" }⟩ :=
  ⟨rfl,
   (poll_after_download sampleEnv "x" sampleRunning
      { VideoID := "x", AudioOnly := false, Quality := "" }
      { Title := "t", Author := "a", Duration := 9900000000000, Thumbnails := "[]", Formats := "[]" }
      rfl rfl).2.1⟩

/-- C2: a start-download whose body does not bind, or whose identifier does not
resolve, answers 400 and returns the state it was given (no entry created or
changed, no runner spawned); a metadata request whose lookup fails answers 400
with the body error = "Invalid video ID" and returns the state it was given. -/
theorem rejected_requests_leave_registry (env : Env) (s : State) (body id : String) :
    (∀ e, env.ShouldBindJSON body = .error e →
      Download env body s = (⟨400, [("error", .str "Invalid request payload")]⟩, s)) ∧
    (∀ req e, env.ShouldBindJSON body = .ok req → env.GetVideo req.VideoID = .error e →
      Download env body s = (⟨400, [("error", .str "Invalid video ID")]⟩, s)) ∧
    (∀ e, env.GetVideo id = .error e →
      ValidateByVideoId env id s = (⟨400, [("error", .str "Invalid video ID")]⟩, s)) := by
  refine ⟨?_, ?_, ?_⟩
  · intro e he; simp [Download, he]
  · intro req e hb he; simp [Download, hb, he]
  · intro e he; simp [ValidateByVideoId, he]

/-- The three rejections at concrete requests: an empty body, the identifier
`bad` in a body, and the identifier `bad` in the metadata route. -/
theorem rejected_requests_leave_registry_witness :
    (Download sampleEnv "" sampleRunning).1.status = 400 ∧
    (Download sampleEnv "bad" sampleRunning).1.status = 400 ∧
    (ValidateByVideoId sampleEnv "bad" sampleRunning).1 =
      ⟨400, [("error", .str "Invalid video ID")]⟩ := by
  have h := rejected_requests_leave_registry sampleEnv sampleRunning "" "bad"
  have h2 := rejected_requests_leave_registry sampleEnv sampleRunning "bad" "bad"
  refine ⟨?_, ?_, ?_⟩
  · rw [h.1 "Key: DownloadRequest.VideoID Error: required" rfl]
  · rw [h2.2.1 { VideoID := "bad", AudioOnly := false, Quality := "" } "extractVideoID failed"
      rfl rfl]
  · rw [h.2.2 "extractVideoID failed" rfl]

/-- C3: the poll answers 404 with error = "No progress found for the given video
ID" exactly when the map has no entry for the identifier; otherwise it answers
200 with the VideoID, Progress, Completed and Error of the object the entry
points to; either way the state is returned as it was. -/
theorem poll_not_found_iff (s : State) (id : String) :
    ((progressHandler id s).1 =
        ⟨404, [("error", .str "No progress found for the given video ID")]⟩ ↔
      s.progressMap id = none) ∧
    ((progressHandler id s).1.status = 404 ↔ s.progressMap id = none) ∧
    (match s.progressMap id with
      | none => True
      | some p => (progressHandler id s).1 =
          ⟨200, [("VideoID", .str (s.heap p).VideoID), ("Progress", .num (s.heap p).Progress),
                 ("Completed", .bool (s.heap p).Completed), ("Error", .str (s.heap p).Error)]⟩) ∧
    (progressHandler id s).2 = s := by
  unfold progressHandler
  cases h : s.progressMap id <;> simp [marshalDownloadProgress]

/-- C8: for the resolving identifier `abc123`, whose duration is 2h45m
(9900000000000 ns), the metadata response is a 200 whose `duration` field is the
JSON number 9900000000000; it is not the quoted string of
`CustomDuration.MarshalJSON`, whatever `time.Duration.String` prints. -/
theorem duration_rendered_as_number :
    (ValidateByVideoId sampleEnv "abc123" State.init).1.status = 200 ∧
    (ValidateByVideoId sampleEnv "abc123" State.init).1.body.field "duration" =
      some (.num 9900000000000) ∧
    ∀ durationString : Int → String,
      (ValidateByVideoId sampleEnv "abc123" State.init).1.body.field "duration" ≠
        some (.raw (CustomDuration.MarshalJSON durationString 9900000000000)) := by
  refine ⟨by decide, by decide, ?_⟩
  intro f
  have h : (ValidateByVideoId sampleEnv "abc123" State.init).1.body.field "duration" =
      some (.num 9900000000000) := by decide
  rw [h]
  simp

/-! ## Executions from process start -/

/-- C10: along every schedule from process start the process does not crash,
and from the state reached every event has a successor state; no key present
before the step is absent after it; a runner step finds its key in the map and
leaves the map as it was, so it creates no entry. -/
theorem registry_never_shrinks (env : Env) (es : List Event) :
    ∃ s, exec env State.init es = some s ∧
      ∀ e, ∃ t, step env s e = some t ∧
        (∀ x, (s.progressMap x).isSome = true → (t.progressMap x).isSome = true) ∧
        (∀ k, e = .runner k → t.progressMap = s.progressMap ∧
          ∀ r, s.runners[k]? = some r → (s.progressMap r.VideoID).isSome = true) := by
  obtain ⟨s, hs, hw⟩ := WF_exec WF_init env es
  refine ⟨s, hs, ?_⟩
  intro e
  rcases step_cases hw env e with h1 | ⟨y, hy, h1⟩ | ⟨k, r, w, r2, q, he, hk, ha, hq, h1⟩
  · refine ⟨s, h1, fun _ hx => hx, ?_⟩
    intro k _
    exact ⟨rfl, fun r hr => hw.tracked r (List.getElem?_mem hr)⟩
  · refine ⟨_, h1, ?_, ?_⟩
    · intro x hx
      by_cases hxy : x = y
      · simp [State.register, hxy]
      · simpa [State.register, Function.update_apply, hxy] using hx
    · intro k hk
      subst hk
      simp [Event.starts] at hy
  · refine ⟨_, h1, fun _ hx => hx, ?_⟩
    intro k2 _
    exact ⟨rfl, fun r3 hr => hw.tracked r3 (List.getElem?_mem hr)⟩

/-- C4: after an accepted start-download for X, taken at a reachable state in
which no earlier runner for X is unfinished, and along any schedule that accepts
no further start-download for X: the assignments of the new runner are exactly
Progress := 0, 20, 40, 60, 80, 100 followed by one Completed := true; the
schedule runs through, and a poll of X shows the fresh entry with the first n of
these assignments applied in order, n being the number of steps the schedule
gave the runner; once it had its seven steps the poll shows Progress = 100,
Completed = true, Error empty. -/
theorem runner_writes_in_order (env : Env) (es0 es : List Event) (s : State) (body : String)
    (req : DownloadRequest) (v : Video)
    (hs : exec env State.init es0 = some s)
    (hb : env.ShouldBindJSON body = .ok req) (hv : env.GetVideo req.VideoID = .ok v)
    (hquiet : s.active req.VideoID = 0)
    (hes : ∀ e ∈ es, e.starts env req.VideoID = false) :
    (∀ fuel, 7 ≤ fuel →
      Runner.writes fuel { VideoID := req.VideoID, i := 0, finished := false } =
        [.setProgress 0, .setProgress 20, .setProgress 40, .setProgress 60, .setProgress 80,
         .setProgress 100, .setCompleted]) ∧
    ∃ t, exec env (Download env body s).2 es = some t ∧
      poll t req.VideoID = ⟨200, marshalDownloadProgress
        (applyWrites
          (Runner.writes (es.count (.runner s.runners.length))
            { VideoID := req.VideoID, i := 0, finished := false })
          { VideoID := req.VideoID, Progress := 0, Completed := false, Error := "" })⟩ ∧
      (7 ≤ es.count (.runner s.runners.length) →
        poll t req.VideoID = ⟨200, marshalDownloadProgress
          { VideoID := req.VideoID, Progress := 100, Completed := true, Error := "" }⟩) := by
  refine ⟨fun fuel h => Runner.writes_fresh _ fuel h, ?_⟩
  obtain ⟨s1, hs1, hw⟩ := WF_exec WF_init env es0
  rw [hs] at hs1
  cases hs1
  rw [Download_accepted hb hv]
  have hw1 := WF_register hw req.VideoID
  have hk : (s.register req.VideoID).runners[s.runners.length]? =
      some { VideoID := req.VideoID, i := 0, finished := false } := by
    simp [State.register]
  have hp : (s.register req.VideoID).progressMap req.VideoID = some s.next := by
    simp [State.register]
  obtain ⟨t, h1, h2, h3⟩ := sole_run env req.VideoID s.runners.length s.next es _ _ hw1 hp hk rfl
    (State.Sole.of_active_zero hquiet 0).1 hes
  have hheap : (s.register req.VideoID).heap s.next =
      { VideoID := req.VideoID, Progress := 0, Completed := false, Error := "" } := by
    simp [State.register]
  rw [hheap] at h3
  refine ⟨t, h1, ?_, ?_⟩
  · simp [poll, progressHandler, h2, h3]
  · intro h7
    simp [poll, progressHandler, h2, h3, Runner.writes_fresh _ _ h7, applyWrites, Write.apply]

/-- A download of `x` at process start, its runner interleaved with a poll, a
download of `y` and a step of the runner of `y`. -/
theorem runner_writes_in_order_witness :
    poll
      ((exec sampleEnv (Download sampleEnv "x" State.init).2
        [.runner 0, .poll "x", .runner 0, .download "y", .runner 1, .runner 0, .runner 0,
         .runner 0, .runner 0, .runner 0]).getD State.init) "x" =
      ⟨200, marshalDownloadProgress
        { VideoID := "x", Progress := 100, Completed := true, Error := "" }⟩ := by
  obtain ⟨_, t, h1, _, h3⟩ := runner_writes_in_order sampleEnv []
    [.runner 0, .poll "x", .runner 0, .download "y", .runner 1, .runner 0, .runner 0,
     .runner 0, .runner 0, .runner 0] State.init "x"
    { VideoID := "x", AudioOnly := false, Quality := "" }
    { Title := "t", Author := "a", Duration := 9900000000000, Thumbnails := "[]", Formats := "[]" }
    rfl rfl rfl rfl (by decide)
  rw [h1]
  exact h3 (by decide)

/-- C5 as stated fails: two downloads of `x` are accepted, the first runner
takes three steps and a poll shows Progress = 40, Completed = false; then the
second runner takes its first step, no download being accepted in between, and
a poll shows Progress = 0, Completed = false. -/
theorem progress_can_decrease :
    (exec sampleEnv State.init
        [.download "x", .download "x", .runner 0, .runner 0, .runner 0]).map
        (fun s => poll s "x") =
      some ⟨200, marshalDownloadProgress
        { VideoID := "x", Progress := 40, Completed := false, Error := "" }⟩ ∧
    (exec sampleEnv State.init
        ([.download "x", .download "x", .runner 0, .runner 0, .runner 0] ++ [.runner 1])).map
        (fun s => poll s "x") =
      some ⟨200, marshalDownloadProgress
        { VideoID := "x", Progress := 0, Completed := false, Error := "" }⟩ ∧
    (∀ e ∈ [Event.runner 1], e.starts sampleEnv "x" = false) := by
  refine ⟨by decide, by decide, by decide⟩

/-- C5, amended: in every execution from process start, if a poll of an
identifier returns Completed = false at a moment when at most one runner for
that identifier is unfinished, then after any further schedule that accepts no
start-download for it the schedule has run through and a poll of the identifier
returns a Progress greater than or equal to the earlier one. -/
theorem progress_monotone_single_runner (env : Env) (es1 es2 : List Event) (s1 : State)
    (x : String) (j1 : DownloadProgress)
    (hs1 : exec env State.init es1 = some s1)
    (hone : s1.active x ≤ 1)
    (hes : ∀ e ∈ es2, e.starts env x = false)
    (hpoll : poll s1 x = ⟨200, marshalDownloadProgress j1⟩)
    (hc : j1.Completed = false) :
    ∃ s2 j2, exec env s1 es2 = some s2 ∧ poll s2 x = ⟨200, marshalDownloadProgress j2⟩ ∧
      j1.Progress ≤ j2.Progress := by
  obtain ⟨hw, hpaced⟩ := Paced_exec env es1 _ _ WF_init Paced_init hs1
  obtain ⟨p, hp, hj⟩ := (poll_ok_iff s1 x j1).1 hpoll
  subst hj
  obtain ⟨k, hsole⟩ := State.Sole.of_active_le_one hone
  obtain ⟨s2, h1, h2, h3⟩ := paced_run env x k p es2 s1 hw hp hsole
    (fun r hk hr hfin => hpaced x p k r hp hc hsole hk hr hfin) hes
  exact ⟨s2, s2.heap p, h1, (poll_ok_iff s2 x _).2 ⟨p, h2, rfl⟩, h3⟩

/-- One download of `x`, two steps of its runner, a poll (Progress = 20), then
the rest of the run interleaved with a download of `y`. -/
theorem progress_monotone_single_runner_witness :
    ∃ s2 j2, exec sampleEnv sampleRunning
        [.runner 0, .download "y", .runner 1, .runner 0] = some s2 ∧
      poll s2 "x" = ⟨200, marshalDownloadProgress j2⟩ ∧ (20 : Int) ≤ j2.Progress :=
  progress_monotone_single_runner sampleEnv [.download "x", .runner 0, .runner 0]
    [.runner 0, .download "y", .runner 1, .runner 0] sampleRunning "x"
    { VideoID := "x", Progress := 20, Completed := false, Error := "" }
    rfl (by decide) (by decide) (by decide) rfl

/-- C6 as stated fails.  Two downloads of `x` are accepted and the first runner
runs to its end; a poll shows Progress = 100, Completed = true; then the second
runner takes its first step, no download being accepted in between, and a poll
shows Progress = 0, Completed = true.  With a single download too: a poll reads
Progress = 80, the runner then writes 100 and Completed, the poll reads
Completed = true and answers Progress = 80, Completed = true; the next poll
answers Progress = 100, Completed = true. -/
theorem completed_job_still_mutated :
    (exec sampleEnv State.init
        [.download "x", .download "x", .runner 0, .runner 0, .runner 0, .runner 0,
         .runner 0, .runner 0, .runner 0]).map (fun s => poll s "x") =
      some ⟨200, marshalDownloadProgress
        { VideoID := "x", Progress := 100, Completed := true, Error := "" }⟩ ∧
    (exec sampleEnv State.init
        ([.download "x", .download "x", .runner 0, .runner 0, .runner 0, .runner 0,
          .runner 0, .runner 0, .runner 0] ++ [.runner 1])).map (fun s => poll s "x") =
      some ⟨200, marshalDownloadProgress
        { VideoID := "x", Progress := 0, Completed := true, Error := "" }⟩ ∧
    (∀ e ∈ [Event.runner 1], e.starts sampleEnv "x" = false) ∧
    (exec sampleEnv State.init
        [.download "x", .runner 0, .runner 0, .runner 0, .runner 0, .runner 0]).bind
        (fun s => pollInFlight sampleEnv "x" s [] [] [.runner 0, .runner 0] []) =
      some ⟨200, marshalDownloadProgress
        { VideoID := "x", Progress := 80, Completed := true, Error := "" }⟩ ∧
    (exec sampleEnv State.init
        ([.download "x", .runner 0, .runner 0, .runner 0, .runner 0, .runner 0] ++
          [.runner 0, .runner 0])).bind
        (fun s => pollInFlight sampleEnv "x" s [] [] [] []) =
      some ⟨200, marshalDownloadProgress
        { VideoID := "x", Progress := 100, Completed := true, Error := "" }⟩ := by
  refine ⟨by decide, by decide, by decide, by decide, by decide⟩

/-- C6, amended: in every execution from process start, take a poll that looks
up its identifier at a reachable state and reads the four fields while the
schedules a, b, c, d run, then a schedule m, then a second poll of the
identifier with the schedules a2, b2, c2, d2, no start-download for the
identifier being accepted anywhere from the first lookup on.  If the first poll
answers 200 with Completed = true, then the run goes through and the second poll
answers 200 with Completed = true, the same VideoID and the same Error; and if no
runner for the identifier was unfinished at the first lookup, it answers the same
Progress as well. -/
theorem completed_stays_completed (env : Env) (es1 a b c d m a2 b2 c2 d2 : List Event)
    (s1 : State) (x : String) (j1 : DownloadProgress)
    (hs1 : exec env State.init es1 = some s1)
    (hes : ∀ e ∈ a ++ b ++ c ++ d ++ m ++ a2 ++ b2 ++ c2 ++ d2, e.starts env x = false)
    (hpoll : pollInFlight env x s1 a b c d = some ⟨200, marshalDownloadProgress j1⟩)
    (hc : j1.Completed = true) :
    ∃ s2 j2, exec env s1 (a ++ b ++ c ++ d ++ m) = some s2 ∧
      pollInFlight env x s2 a2 b2 c2 d2 = some ⟨200, marshalDownloadProgress j2⟩ ∧
      j2.Completed = true ∧ j2.Error = j1.Error ∧ j2.VideoID = j1.VideoID ∧
      (s1.active x = 0 → j2 = j1) := by
  obtain ⟨s, hs, hw⟩ := WF_exec WF_init env es1
  rw [hs1] at hs
  cases hs
  have hp : ∃ p, s1.progressMap x = some p := by
    cases hp : s1.progressMap x with
    | none => simp [pollInFlight, hp] at hpoll
    | some p => exact ⟨p, rfl⟩
  obtain ⟨p, hp⟩ := hp
  have hsplit : ∀ e, (e ∈ a ∨ e ∈ b ∨ e ∈ c ∨ e ∈ d ∨ e ∈ m ∨ e ∈ a2 ∨ e ∈ b2 ∨ e ∈ c2 ∨ e ∈ d2) →
      e.starts env x = false := by
    intro e he
    apply hes e
    simp only [List.mem_append]
    tauto
  obtain ⟨t1, t2, t3, t4, h1, h2, h3, h4, hw4, A1, A2, A3, A4, hA⟩ :=
    pollInFlight_stable env x p s1 a b c d hw hp (fun e he => hsplit e (by tauto))
      (fun e he => hsplit e (by tauto)) (fun e he => hsplit e (by tauto))
      (fun e he => hsplit e (by tauto))
  obtain ⟨v, hm, hwv, M⟩ := stable_run env x p m t4 hw4 A4.map_eq
    (fun e he => hsplit e (by tauto))
  obtain ⟨v1, v2, v3, v4, _, _, _, _, _, B1, B2, B3, B4, hB⟩ :=
    pollInFlight_stable env x p v a2 b2 c2 d2 hwv M.map_eq (fun e he => hsplit e (by tauto))
      (fun e he => hsplit e (by tauto)) (fun e he => hsplit e (by tauto))
      (fun e he => hsplit e (by tauto))
  rw [hA] at hpoll
  have hj1 := marshalDownloadProgress_injective
    (congrArg Response.body (Option.some.inj hpoll))
  subst hj1
  have hrun : exec env s1 (a ++ b ++ c ++ d ++ m) = some v := by
    simp [exec_append, h1, h2, h3, h4, hm]
  refine ⟨v, _, hrun, hB, ?_, ?_, ?_, ?_⟩
  · exact ((((A4.trans M).trans B1).trans B2).trans B3).completed hc
  · exact ((((M.trans B1).trans B2).trans B3).trans B4).error_eq
  · exact ((((A2.trans A3).trans A4).trans M).trans B1).videoID_eq
  · intro h0
    have hq := State.Quiet.of_no_active h0
    have e1 := (A1.quiet hq).1
    have e2 := ((A1.trans A2).quiet hq).1
    have e3 := (((A1.trans A2).trans A3).quiet hq).1
    have e4 := ((((A1.trans A2).trans A3).trans A4).quiet hq).1
    have S := (((A1.trans A2).trans A3).trans A4).trans M
    have f1 := ((S.trans B1).quiet hq).1
    have f2 := (((S.trans B1).trans B2).quiet hq).1
    have f3 := ((((S.trans B1).trans B2).trans B3).quiet hq).1
    have f4 := (((((S.trans B1).trans B2).trans B3).trans B4).quiet hq).1
    rw [e1, e2, e3, e4, f1, f2, f3, f4]

/-- One download of `x` and five steps of its runner; the first poll reads
Progress = 80, the runner finishes, the poll reads Completed = true; then a
download of `y` and a second poll of `x` interleaved with a step of the runner
of `y`. -/
theorem completed_stays_completed_witness :
    ∃ s2 j2, exec sampleEnv sampleLate
        ([] ++ [] ++ [.runner 0, .runner 0] ++ [.poll "x"] ++ [.download "y"]) = some s2 ∧
      pollInFlight sampleEnv "x" s2 [] [.runner 1] [] [] =
        some ⟨200, marshalDownloadProgress j2⟩ ∧
      j2.Completed = true := by
  obtain ⟨s2, j2, h1, h2, h3, _⟩ := completed_stays_completed sampleEnv
    [.download "x", .runner 0, .runner 0, .runner 0, .runner 0, .runner 0]
    [] [] [.runner 0, .runner 0] [.poll "x"] [.download "y"] [] [.runner 1] [] []
    sampleLate "x" { VideoID := "x", Progress := 80, Completed := true, Error := "" }
    rfl (by decide) (by decide) rfl
  exact ⟨s2, j2, h1, h2, h3⟩

/-- C7 as stated fails: a download of `x` is accepted and its runner writes
Progress = 0; a second download of `x` is accepted and a poll shows Progress = 0;
then the first runner (number 0) takes its next step and a poll shows
Progress = 20: the step of the first runner changed what the poll returns. -/
theorem first_runner_still_writes :
    (exec sampleEnv State.init [.download "x", .runner 0, .download "x"]).map
        (fun s => poll s "x") =
      some ⟨200, marshalDownloadProgress
        { VideoID := "x", Progress := 0, Completed := false, Error := "" }⟩ ∧
    (exec sampleEnv State.init
        ([.download "x", .runner 0, .download "x"] ++ [.runner 0])).map
        (fun s => poll s "x") =
      some ⟨200, marshalDownloadProgress
        { VideoID := "x", Progress := 20, Completed := false, Error := "" }⟩ ∧
    (exec sampleEnv State.init [.download "x", .runner 0, .download "x"]).map
        (fun s => s.runners[0]?) =
      some (some { VideoID := "x", i := 20, finished := false }) := by
  refine ⟨by decide, by decide, by decide⟩

/-- C7, amended: when a start-download for X is accepted at a reachable state
that already tracks a job for X, the entry for X is replaced by a fresh object
at a new address (a poll shows Progress = 0, Completed = false, Error empty),
and the next assignment of any runner spawned earlier for X lands in that new
object.  Along every later schedule: the run goes through; the old object is
never assigned to and no key points to it; every runner spawned before stays in
the system with its key; X points to the new object as long as no further
start-download for X is accepted; at the state reached, each step of an
unfinished runner spawned for X (the first runner included) assigns to the
object X then points to, which is not the old one, and a poll right after shows
that assignment; a step of a runner spawned for another identifier leaves a poll
of X as it was; and every poll that looks X up there, however its four reads
interleave with the rest, serialises an object other than the old one. -/
theorem replaced_job_unobservable (env : Env) (es0 es : List Event) (s : State)
    (body : String) (req : DownloadRequest) (v : Video) (pold : Nat)
    (hs : exec env State.init es0 = some s)
    (hb : env.ShouldBindJSON body = .ok req) (hv : env.GetVideo req.VideoID = .ok v)
    (hold : s.progressMap req.VideoID = some pold) :
    poll (Download env body s).2 req.VideoID =
      ⟨200, marshalDownloadProgress
        { VideoID := req.VideoID, Progress := 0, Completed := false, Error := "" }⟩ ∧
    (Download env body s).2.progressMap req.VideoID = some s.next ∧ s.next ≠ pold ∧
    (∀ k r w r2, s.runners[k]? = some r → r.VideoID = req.VideoID → r.advance = some (w, r2) →
      ∃ t, step env (Download env body s).2 (.runner k) = some t ∧
        poll t req.VideoID = ⟨200, marshalDownloadProgress
          (w.apply { VideoID := req.VideoID, Progress := 0, Completed := false, Error := "" })⟩) ∧
    ∃ t, exec env (Download env body s).2 es = some t ∧ t.heap pold = s.heap pold ∧
      (∀ y, t.progressMap y ≠ some pold) ∧
      (∀ (k : Nat) (r : Runner), s.runners[k]? = some r →
        ∃ r2, t.runners[k]? = some r2 ∧ r2.VideoID = r.VideoID) ∧
      ((∀ e ∈ es, e.starts env req.VideoID = false) →
        t.progressMap req.VideoID = some s.next) ∧
      (∃ p, t.progressMap req.VideoID = some p ∧ p ≠ pold ∧
        (∀ k r w r2, t.runners[k]? = some r → r.VideoID = req.VideoID →
          r.advance = some (w, r2) →
          ∃ t2, step env t (.runner k) = some t2 ∧ t2.progressMap = t.progressMap ∧
            t2.heap p = w.apply (t.heap p) ∧ t2.heap pold = s.heap pold ∧
            poll t2 req.VideoID = ⟨200, marshalDownloadProgress (w.apply (t.heap p))⟩) ∧
        (∀ a b c d : List Event, ∃ t1 t2 t3 t4, exec env t a = some t1 ∧
          exec env t1 b = some t2 ∧ exec env t2 c = some t3 ∧ exec env t3 d = some t4 ∧
          pollInFlight env req.VideoID t a b c d = some ⟨200, marshalDownloadProgress
            { VideoID := (t1.heap p).VideoID, Progress := (t2.heap p).Progress,
              Completed := (t3.heap p).Completed, Error := (t4.heap p).Error }⟩)) ∧
      (∀ k r, t.runners[k]? = some r → r.VideoID ≠ req.VideoID →
        ∃ t2, step env t (.runner k) = some t2 ∧ poll t2 req.VideoID = poll t req.VideoID) := by
  obtain ⟨s0, hs0, hw⟩ := WF_exec WF_init env es0
  rw [hs] at hs0
  cases hs0
  rw [Download_accepted hb hv]
  have hlt := hw.fresh _ _ hold
  have hne : pold ≠ s.next := by omega
  have hw1 := WF_register hw req.VideoID
  have hmap1 : (s.register req.VideoID).progressMap req.VideoID = some s.next := by
    simp [State.register]
  have hrun1 : ∀ (k : Nat) (r : Runner), s.runners[k]? = some r →
      (s.register req.VideoID).runners[k]? = some r := by
    intro k r hk
    have hlen : k < s.runners.length := by
      rcases List.getElem?_eq_some.1 hk with ⟨hlen, _⟩
      exact hlen
    simp only [State.register]
    rw [List.getElem?_append_left hlen]
    exact hk
  refine ⟨by simp [poll, progressHandler, State.register], hmap1, Ne.symm hne, ?_, ?_⟩
  · intro k r w r2 hk hr ha
    obtain ⟨t, hst, _, _, _, hpoll⟩ := runner_same_key env (hrun1 k r hk) hr ha hmap1
    refine ⟨t, hst, ?_⟩
    rw [hpoll]
    simp [State.register]
  · have hno : ∀ y, (s.register req.VideoID).progressMap y ≠ some pold := by
      intro y hy
      simp only [State.register, Function.update_apply] at hy
      split_ifs at hy with hyx
      · simp at hy; omega
      · exact hyx ((hw.keyed y pold hy).symm.trans (hw.keyed _ pold hold))
    obtain ⟨t, h1, hwt, h2, h3⟩ := unreachable_run env pold es (s.register req.VideoID)
      hw1 (by simp [State.register]; omega) hno
    obtain ⟨tg, hg1, _, hg2, hg3⟩ := grow_run env es (s.register req.VideoID) hw1
    rw [h1] at hg1
    cases hg1
    have hpold : t.heap pold = s.heap pold := by
      rw [h2]; simp [State.register, Function.update_apply, hne]
    have hpres : ∃ p, t.progressMap req.VideoID = some p := by
      have := hg2 req.VideoID (by rw [hmap1]; rfl)
      cases hq : t.progressMap req.VideoID with
      | none => rw [hq] at this; exact Bool.noConfusion this
      | some p => exact ⟨p, rfl⟩
    obtain ⟨p, hp⟩ := hpres
    refine ⟨t, h1, hpold, h3, ?_, ?_, ⟨p, hp, fun h => h3 _ (h ▸ hp), ?_, ?_⟩, ?_⟩
    · intro k r hk
      exact hg3 k r (hrun1 k r hk)
    · intro hes
      obtain ⟨t2, hex, _, hst⟩ := stable_run env req.VideoID s.next es _ hw1 hmap1 hes
      rw [h1] at hex
      cases hex
      exact hst.map_eq
    · intro k r w r2 hk hr ha
      obtain ⟨t2, hst, hm2, hh2, hother, hpoll⟩ := runner_same_key env hk hr ha hp
      refine ⟨t2, hst, hm2, hh2, ?_, hpoll⟩
      rw [hother pold (fun h => h3 _ (h ▸ hp)), hpold]
    · intro a b c d
      obtain ⟨t1, e1, w1⟩ := WF_exec hwt env a
      obtain ⟨t2, e2, w2⟩ := WF_exec w1 env b
      obtain ⟨t3, e3, w3⟩ := WF_exec w2 env c
      obtain ⟨t4, e4, _⟩ := WF_exec w3 env d
      exact ⟨t1, t2, t3, t4, e1, e2, e3, e4, by simp [pollInFlight, hp, e1, e2, e3, e4]⟩
    · intro k r hk hr
      exact runner_other_key hwt env req.VideoID k r hk hr

/-- A second download of `x` accepted while the first runner is between its
second and third step; the old object sits at address 0. -/
theorem replaced_job_unobservable_witness :
    ∃ t, exec sampleEnv (Download sampleEnv "x" sampleRunning).2
        [.runner 0, .runner 1, .download "y", .runner 0] = some t ∧
      t.heap 0 = sampleRunning.heap 0 ∧ (∀ y, t.progressMap y ≠ some 0) ∧
      t.progressMap "x" = some sampleRunning.next :=
  have h := replaced_job_unobservable sampleEnv [.download "x", .runner 0, .runner 0]
    [.runner 0, .runner 1, .download "y", .runner 0] sampleRunning "x"
    { VideoID := "x", AudioOnly := false, Quality := "" }
    { Title := "t", Author := "a", Duration := 9900000000000, Thumbnails := "[]", Formats := "[]" }
    0 rfl rfl rfl (by decide)
  match h.2.2.2.2 with
  | ⟨t, h1, h2, h3, _, h5, _⟩ => ⟨t, h1, h2, h3, h5 (by decide)⟩

/-! ## Locking -/

theorem Runner.ops_obeys (fuel : Nat) (r : Runner) :
    obeys lockRule (Runner.ops fuel r) = true ∧ heldAfter .free (Runner.ops fuel r) = .free := by
  induction fuel generalizing r with
  | zero => exact ⟨rfl, rfl⟩
  | succ n ih =>
    unfold Runner.ops
    split
    · exact ⟨rfl, rfl⟩
    · have h := ih (r := ‹Runner›)
      have h1 := h.1
      simp only [obeys, heldAt, heldAfter, Op.after, List.cons_append, List.nil_append,
        List.all_cons] at h1 ⊢
      refine ⟨?_, h.2⟩
      change (_ && (_ && (_ && (_ && (_ && (_ &&
        (heldAt Held.free (Runner.ops n _)).all fun oh => lockRule oh.2 oh.1)))))) = true
      rw [h1]; rfl
    · have h := ih (r := ‹Runner›)
      have h1 := h.1
      simp only [obeys, heldAt, heldAfter, Op.after, List.cons_append, List.nil_append,
        List.all_cons] at h1 ⊢
      refine ⟨?_, h.2⟩
      change (_ && (_ && (_ && (_ && (_ && (_ &&
        (heldAt Held.free (Runner.ops n _)).all fun oh => lockRule oh.2 oh.1)))))) = true
      rw [h1]; rfl

/-- C9 as stated fails: in an accepted `Download`, in the runner and in a poll
that finds its entry, the log line right after the lock call is written while
the lock is held (exclusively at line 124 and 145, shared at line 179); and the
poll reads the fields of the object after `RUnlock`, with the lock released. -/
theorem lock_discipline_as_stated_fails :
    obeys specRule (Download.ops sampleEnv "x") = false ∧
    obeys specRule (Runner.ops 7 { VideoID := "x", i := 0, finished := false }) = false ∧
    obeys specRule (progressHandler.ops "x" sampleRunning) = false ∧
    (Op.log 124, Held.exclusive) ∈ heldAt .free (Download.ops sampleEnv "x") ∧
    (Op.log 145, Held.exclusive) ∈
      heldAt .free (Runner.ops 7 { VideoID := "x", i := 0, finished := false }) ∧
    (Op.log 179, Held.shared) ∈ heldAt .free (progressHandler.ops "x" sampleRunning) ∧
    (Op.fieldRead, Held.free) ∈ heldAt .free (progressHandler.ops "x" sampleRunning) := by
  refine ⟨by decide, by decide, by decide, by decide, by decide, by decide, by decide⟩

/-- C9, amended: in `Download`, in the runner and in the poll handler, on every
path, each read of the map happens with the lock held, each write of the map and
each write of a field with the lock held exclusively; every call out of the
handler (parameter and body binding, the metadata lookup), the `go` statement
and each response happen with the lock released, and so does every log line
except the one that announces the lock (lines 124, 136, 145, 179), which is the
only I/O under the lock; locks are taken only when none is held, released by the
matching call, and released when the sequence ends. -/
theorem lock_discipline (env : Env) (body id : String) (s : State) (fuel : Nat) (r : Runner) :
    (obeys lockRule (Download.ops env body) = true ∧
      heldAfter .free (Download.ops env body) = .free) ∧
    (obeys lockRule (Runner.ops fuel r) = true ∧
      heldAfter .free (Runner.ops fuel r) = .free) ∧
    (obeys lockRule (progressHandler.ops id s) = true ∧
      heldAfter .free (progressHandler.ops id s) = .free) := by
  refine ⟨?_, Runner.ops_obeys fuel r, ?_⟩
  · cases hb : env.ShouldBindJSON body with
    | error e => simp only [Download.ops, hb]; exact ⟨rfl, rfl⟩
    | ok req =>
      cases hv : env.GetVideo req.VideoID with
      | error e => simp only [Download.ops, hb, hv]; exact ⟨rfl, rfl⟩
      | ok v => simp only [Download.ops, hb, hv]; exact ⟨rfl, rfl⟩
  · cases hp : s.progressMap id with
    | none => simp only [progressHandler.ops, hp]; exact ⟨rfl, rfl⟩
    | some q => simp only [progressHandler.ops, hp]; exact ⟨rfl, rfl⟩

end YoutubeGoApi
